import Mathlib

/-!
# git-all: reconciliation of a remote organisation listing against a local directory

A shallow embedding of `main.go`.  Each definition below mirrors one function of
the Go source; effects are made explicit:

* goroutine launches `go getRepo(...)` are recorded as the list of dispatched
  `SyncTask`s, in dispatch order;
* the state of a `context.Context` at the moments the program looks at it is an
  oracle argument (`ctxDone`, `Sched`);
* the remote API is an oracle argument (`Remote`);
* `log.Fatalln` and run-time panics end the process and are `none`.
-/

namespace GitAll

/-! ## Data model -/

/-- The two methods of `os.FileInfo` that `exists` calls. -/
structure FileInfo where
  name : String
  isDir : Bool
  deriving DecidableEq

/-- The two fields of `github.Repository` that the program reads (`*r.Name`, `*r.SSHURL`); both
pointers are non-nil in a descriptor decoded from a listing response. -/
structure Repository where
  name : String
  sshURL : String
  deriving DecidableEq

/-- One launch `go getRepo(childCTX, gitCmd, c, r, &wg)`. -/
structure SyncTask where
  gitCmd : String
  repo : Repository
  deriving DecidableEq

/-! ## `exists` (main.go 202-216) -/

/-- Embeds `exists(repoName, localRepos)`: entries are `os.FileInfo` interface values, `none` is a
nil entry. -/
def repoExists (repoName : String) : List (Option FileInfo) → Bool
  | [] => false
  | none :: rest => repoExists repoName rest
  | some r :: rest =>
    if !r.isDir then repoExists repoName rest
    else if repoName = r.name then true
    else repoExists repoName rest

/-! ## `iterateRepos` (main.go 260-283) -/

/-- The loop body of `iterateRepos` from position `i` on.  `ctxDone i` is what the
`select` on `childCTX.Done()` observes when the loop reaches position `i`: `true` takes the
`return` on line 272, `false` takes the `default` branch. -/
def iterateReposFrom (ctxDone : Nat → Bool) (localRepos : List (Option FileInfo)) :
    Nat → List Repository → List SyncTask
  | _, [] => []
  | i, r :: rs =>
    if ctxDone i then []
    else if repoExists r.name localRepos then
      ⟨"pull", r⟩ :: iterateReposFrom ctxDone localRepos (i + 1) rs
    else
      ⟨"clone", r⟩ :: iterateReposFrom ctxDone localRepos (i + 1) rs

/-- Embeds `iterateRepos(ctx, localRepos, repos, c)`: the tasks it launches, in order. -/
def iterateRepos (ctxDone : Nat → Bool) (localRepos : List (Option FileInfo))
    (repos : List Repository) : List SyncTask :=
  iterateReposFrom ctxDone localRepos 0 repos

/-! ## The remote lister: `getRepoList` (main.go 86-111) and the producer goroutine (main.go 52-65) -/

/-- The dynamic type of a non-nil `err` returned by `client.Repositories.ListByOrg`, as far as the
program distinguishes it: `*github.RateLimitError` or anything else. -/
inductive ListError where
  | rateLimit
  | other
  deriving DecidableEq

/-- What one call `client.Repositories.ListByOrg(repoListCTX, org, opt)` hands back, together with
the value of `ctx.Err() != nil` at line 94 (read only when `err` is non-nil). -/
structure ListResult where
  repos : List Repository
  nextPage : Nat
  err : Option ListError
  ctxErr : Bool
  deriving DecidableEq

/-- The remote service: the answer to the request issued after `k` earlier requests, for cursor
`opt.Page = page`. -/
abbrev Remote := Nat → Nat → ListResult

/-- The error value `getRepoList` returns (second result). -/
inductive Err where
  | ctx
  | api (e : ListError)
  | hitRateLimit
  deriving DecidableEq

/-- Observable actions of the producer side. -/
inductive Event where
  | request (page : Nat)
  | send (repos : List Repository)
  | log (e : Err)
  | close
  deriving DecidableEq

/-- State of the producer side: `opt.Page`, the number of requests issued so far and the actions
performed so far, oldest first. -/
structure Lister where
  page : Nat
  reqs : Nat
  trace : List Event
  deriving DecidableEq

/-- The state in which `main` starts the producer: `opt.Page` is the zero value. -/
def Lister.init : Lister := ⟨0, 0, []⟩

/-- The type assertion `err.(*github.RateLimitError)` of line 107. -/
def isRateLimitError : Option ListError → Bool
  | some .rateLimit => true
  | _ => false

/-- Embeds `getRepoList`.  The first argument bounds the recursion depth; the result is the state
reached and, when the call returned within the bound, its two results `(more, err)`. -/
def getRepoList (remote : Remote) : Nat → Lister → Lister × Option (Bool × Option Err)
  | 0, st => (st, none)
  | fuel + 1, st =>
    let res := remote st.reqs st.page
    let st1 : Lister := ⟨st.page, st.reqs + 1, st.trace ++ [.request st.page]⟩
    match res.err with
    | some e =>
      -- lines 93-98: every non-nil `err` returns here with `more = true`
      if res.ctxErr then (st1, some (true, some .ctx))
      else (st1, some (true, some (.api e)))
    | none =>
      let st2 : Lister := ⟨st1.page, st1.reqs, st1.trace ++ [.send res.repos]⟩
      if res.nextPage = 0 then (st2, some (false, none))
      else
        let st3 : Lister := ⟨res.nextPage, st2.reqs, st2.trace⟩
        -- line 107 tests the same variable `err` that line 93 found to be nil
        if isRateLimitError res.err then (st3, some (false, some .hitRateLimit))
        else getRepoList remote fuel st3

/-- Outcome of running the producer goroutine for a bounded number of loop iterations. -/
structure ProducerRun where
  state : Lister
  returned : Bool
  deriving DecidableEq

/-- Embeds the goroutine of main.go 52-65.  `fuel` bounds both the number of loop iterations and
the recursion depth of each `getRepoList` call. -/
def producer (remote : Remote) : Nat → Lister → ProducerRun
  | 0, st => ⟨st, false⟩
  | fuel + 1, st =>
    match getRepoList remote (fuel + 1) st with
    | (st1, none) => ⟨st1, false⟩
    | (st1, some (more, err)) =>
      let st2 : Lister :=
        match err with
        | some e => ⟨st1.page, st1.reqs, st1.trace ++ [.log e]⟩
        | none => st1
      if !more then ⟨⟨st2.page, st2.reqs, st2.trace ++ [.close]⟩, true⟩
      else producer remote fuel st2

/-- The pages sent on `repoChan`, in order. -/
def sentPages : List Event → List (List Repository)
  | [] => []
  | .send p :: es => p :: sentPages es
  | _ :: es => sentPages es

/-- The cursors requested, in order. -/
def requestedPages : List Event → List Nat
  | [] => []
  | .request p :: es => p :: requestedPages es
  | _ :: es => requestedPages es

/-! ## The coordinator loop of `main` (main.go 67-84) -/

/-- What the coordinator observes of the run deadline `ctx`, per loop iteration `k`.

* `ctxDone k`: the case `<-ctx.Done()` can proceed when the `select` of iteration `k` commits;
* `pick k`: the choice Go makes among the cases that can proceed when both can (`true` is the
  `ctx.Done()` case, `false` the receive from `repoChan`);
* `doneIn k i`: what `iterateRepos`, called in iteration `k`, observes at position `i`. -/
structure Sched where
  ctxDone : Nat → Bool
  pick : Nat → Bool
  doneIn : Nat → Nat → Bool

/-- A deadline that has fired stays fired: along the order in which the coordinator looks at it
(select of iteration `k`, positions `0, 1, ...` of that iteration's page, select of iteration
`k + 1`) the observations never go back from `true` to `false`. -/
def Sched.Monotone (s : Sched) : Prop :=
  (∀ k i, s.ctxDone k = true → s.doneIn k i = true) ∧
  (∀ k i, s.doneIn k i = true → s.doneIn k (i + 1) = true) ∧
  (∀ k i, s.doneIn k i = true → s.ctxDone (k + 1) = true)

/-- Result of the coordinator loop: the process exit status and, per call of `iterateRepos`, the
tasks it launched. -/
structure RunResult where
  exitCode : Nat
  dispatched : List (List SyncTask)
  deriving DecidableEq

/-- Embeds the `Loop:` of `main` from iteration `k` on.  `pending` is what the producer puts on
`repoChan` from here on, in FIFO order, and `closed` whether it closes the channel afterwards.

* A page or the closed channel is receivable: `select` takes `<-ctx.Done()` (exit status 2) when
  that case can proceed and is the one picked, otherwise the receive.
* Receiving from the drained, closed channel yields `(nil, false)`: `iterateRepos` runs on the nil
  page, then `break Loop` and `main` returns (exit status 0).
* Nothing pending on a channel that is never closed: only `<-ctx.Done()` can ever proceed, which it
  does when the 300 s timeout of `ctx` fires. -/
def mainLoop (s : Sched) (localRepos : List (Option FileInfo)) :
    Nat → List (List Repository) → Bool → RunResult
  | k, [], closed =>
    if closed then
      if s.ctxDone k && s.pick k then ⟨2, []⟩
      else ⟨0, [iterateRepos (s.doneIn k) localRepos []]⟩
    else ⟨2, []⟩
  | k, repos :: rest, closed =>
    if s.ctxDone k && s.pick k then ⟨2, []⟩
    else
      let tasks := iterateRepos (s.doneIn k) localRepos repos
      let r := mainLoop s localRepos (k + 1) rest closed
      ⟨r.exitCode, tasks :: r.dispatched⟩

/-! ## Configuration: `initUser`, `findGitConfigLine`, `parseGitConfigLine` (main.go 123-200) -/

/-- Embeds `strings.Split(s, sep)` for a one-character separator, on the characters of `s`. -/
def splitChars (sep : Char) : List Char → List (List Char)
  | [] => [[]]
  | c :: cs =>
    if c = sep then [] :: splitChars sep cs
    else
      match splitChars sep cs with
      | [] => [[c]]
      | h :: t => (c :: h) :: t

/-- Embeds `strings.Split` with the one-character separators the program uses. -/
def stringsSplit (s : String) (sep : Char) : List String :=
  (splitChars sep s.data).map String.mk

/-- Substring test on characters. -/
def containsChars (sub : List Char) : List Char → Bool
  | [] => sub.isPrefixOf []
  | c :: cs => sub.isPrefixOf (c :: cs) || containsChars sub cs

/-- Embeds `strings.Contains(l, s)`. -/
def stringsContains (l s : String) : Bool :=
  containsChars s.data l.data

/-- Embeds `parseGitConfigLine`: `c[1]` of the split at `=`; `none` is the index-out-of-range
panic. -/
def parseGitConfigLine (s : String) : Option String :=
  (stringsSplit s '=').get? 1

/-- The `for _, l := range lines` loop of `findGitConfigLine`. -/
def findLine (s : String) : List String → Option String
  | [] => some ""
  | l :: ls => if stringsContains l s then parseGitConfigLine l else findLine s ls

/-- What the program reads of its surroundings at start-up: `os.Getenv` (the empty string for an
unset variable) and `ioutil.ReadFile` (`none` for an error). -/
structure Env where
  getenv : String → String
  readFile : String → Option String

/-- Embeds `findGitConfigLine(s)`; `none` when the process ends (`log.Fatalln`, or the panic of
`parseGitConfigLine`). -/
def findGitConfigLine (env : Env) (s : String) : Option String :=
  let homeDir := env.getenv "HOME"
  if homeDir = "" then none
  else
    match env.readFile (homeDir ++ "/.gitconfig") with
    | none => none
    | some file => findLine s (stringsSplit file '\n')

/-- The four command-line flags after `flag.Parse()` (default `""`). -/
structure Flags where
  u : String
  r : String
  a : String
  o : String

/-- Embeds `gitCreds`. -/
structure gitCreds where
  gitUser : String
  gitAPIKey : String
  repoDir : String
  org : String
  deriving DecidableEq

/-- Lines 134-142 and 149-157: a field with a config-file fallback.  `none` is `log.Fatalln`. -/
def resolveWithConfig (env : Env) (flagValue envName key : String) : Option String :=
  if flagValue = "" then
    let v := env.getenv envName
    if v = "" then
      match findGitConfigLine env key with
      | none => none
      | some v2 => if v2 = "" then none else some v2
    else some v
  else some flagValue

/-- Lines 143-148 and 158-163: a field without config-file fallback.  `none` is `log.Fatalln`. -/
def resolveNoConfig (env : Env) (flagValue envName : String) : Option String :=
  if flagValue = "" then
    let v := env.getenv envName
    if v = "" then none else some v
  else some flagValue

/-- Embeds `initUser`: the four fields are resolved in source order, the first fatal one ends the
process (`none`). -/
def initUser (fl : Flags) (env : Env) : Option gitCreds :=
  match resolveWithConfig env fl.u "GIT_USER" "user =" with
  | none => none
  | some gitUser =>
    match resolveNoConfig env fl.r "REPO_DIR" with
    | none => none
    | some repoDir =>
      match resolveWithConfig env fl.a "GITHUB_API_KEY" "token =" with
      | none => none
      | some gitAPIKey =>
        match resolveNoConfig env fl.o "GITHUB_ORG" with
        | none => none
        | some org => some ⟨gitUser, gitAPIKey, repoDir, org⟩

/-! ## Vocabulary of the statements -/

/-- The name is present in the local inventory snapshot: some entry is a directory of exactly that
name. -/
def InInventory (name : String) (localRepos : List (Option FileInfo)) : Prop :=
  ∃ r : FileInfo, some r ∈ localRepos ∧ r.isDir = true ∧ r.name = name

/-- The task launched for a repository that passes the deadline check. -/
def taskOf (localRepos : List (Option FileInfo)) (r : Repository) : SyncTask :=
  if repoExists r.name localRepos then ⟨"pull", r⟩ else ⟨"clone", r⟩

/-- The resolution order of one configuration field in the words of the specification: the flag
when non-empty, otherwise the environment variable when non-empty, otherwise the config-file
value (the empty string for a field without config-file fallback). -/
def resolveSpec (flagValue envValue configValue : String) : String :=
  if flagValue ≠ "" then flagValue
  else if envValue ≠ "" then envValue
  else configValue

/-- The value `V` that a config line of the form `key V` configures (for the key `token =`, the
line `token = V`), in the words of the specification; `none` for a line not of that form. -/
def lineValueSpec (key line : String) : Option String :=
  if (key.data ++ [' ']).isPrefixOf line.data then
    some (String.mk (line.data.drop (key.data.length + 1)))
  else none

/-- The value configured on the first line of the form `key V`; the empty string when no line has
that form. -/
def firstValueSpec (key : String) : List String → String
  | [] => ""
  | l :: ls =>
    match lineValueSpec key l with
    | some v => v
    | none => firstValueSpec key ls

/-- The value found in the config file `~/.gitconfig` for a key, in the words of the
specification; the empty string when there is no readable config file. -/
def configValueSpec (env : Env) (key : String) : String :=
  if env.getenv "HOME" = "" then ""
  else
    match env.readFile (env.getenv "HOME" ++ "/.gitconfig") with
    | none => ""
    | some file => firstValueSpec key (stringsSplit file '\n')

/-- The four fields resolved as the specification words it: flag, else environment variable,
else, for the account identity and the API credential only, the value found in the config file. -/
def resolvedSpec (fl : Flags) (env : Env) : gitCreds :=
  { gitUser := resolveSpec fl.u (env.getenv "GIT_USER") (configValueSpec env "user =")
    gitAPIKey := resolveSpec fl.a (env.getenv "GITHUB_API_KEY") (configValueSpec env "token =")
    repoDir := resolveSpec fl.r (env.getenv "REPO_DIR") ""
    org := resolveSpec fl.o (env.getenv "GITHUB_ORG") "" }

/-- A start-up environment with `HOME=/home/u`, no other variable set, and `~/.gitconfig` holding
`content`. -/
def envWithConfig (content : String) : Env :=
  { getenv := fun n => if n = "HOME" then "/home/u" else ""
    readFile := fun path => if path = "/home/u/.gitconfig" then some content else none }

/-- A finite remote listing: every page with the next-page token its response carries. -/
abbrev Listing := List (List Repository × Nat)

/-- The remote answers the requests numbered `k, k + 1, ...` successfully with the pages of the
listing, provided the first is asked with cursor `c` and each later one with the token of the
response before it. -/
def Serves (remote : Remote) : Nat → Nat → Listing → Prop
  | _, _, [] => True
  | k, c, (repos, next) :: rest =>
    (remote k c).err = none ∧ (remote k c).repos = repos ∧ (remote k c).nextPage = next ∧
      Serves remote (k + 1) next rest

/-- The listing has at least one page, and the token `0` ("no more pages") is carried by its last
page and by no other. -/
def LastTokenOnly : Listing → Prop
  | [] => False
  | [(_, next)] => next = 0
  | (_, next) :: rest => next ≠ 0 ∧ LastTokenOnly rest

/-- The actions of fetching the listing page by page starting at cursor `c`: request, send,
request, send, ... -/
def listingTrace : Nat → Listing → List Event
  | _, [] => []
  | c, (repos, next) :: rest => .request c :: .send repos :: listingTrace next rest

/-- Some request recorded in the trace was answered successfully with next-page token `0`: the
last page has been reached. -/
def LastPageReached (remote : Remote) (trace : List Event) : Prop :=
  ∃ k c, (requestedPages trace)[k]? = some c ∧
    (remote k c).err = none ∧ (remote k c).nextPage = 0

/-- A remote that serves three pages numbered as GitHub numbers them (tokens 2, 3, 0). -/
def threePages : Remote := fun _ page =>
  match page with
  | 0 => ⟨[⟨"alpha", "a"⟩], 2, none, false⟩
  | 2 => ⟨[⟨"beta", "b"⟩], 3, none, false⟩
  | 3 => ⟨[⟨"gamma", "c"⟩], 0, none, false⟩
  | _ => ⟨[], 0, some .other, false⟩

/-- The listing `threePages` serves. -/
def threePagesListing : Listing :=
  [([⟨"alpha", "a"⟩], 2), ([⟨"beta", "b"⟩], 3), ([⟨"gamma", "c"⟩], 0)]

/-- The scenario of the specification: page 1 of 3 is served, every later request is answered
with a rate-limit error while the run deadline has not fired. -/
def rateLimitedOnPageTwo : Remote := fun k _ =>
  match k with
  | 0 => ⟨[⟨"alpha", "a"⟩], 2, none, false⟩
  | _ => ⟨[], 0, some .rateLimit, false⟩

/-- A remote whose every answer is an error other than a rate limit, the run deadline not having
fired. -/
def alwaysFailing : Remote := fun _ _ => ⟨[], 0, some .other, false⟩

/-- A remote whose every answer is an error with the run deadline expired (`ctx.Err() != nil`). -/
def deadlineExpired : Remote := fun _ _ => ⟨[], 0, some .other, true⟩

/-- All tasks launched during a run of the coordinator loop, in launch order. -/
def RunResult.tasks (r : RunResult) : List SyncTask :=
  r.dispatched.flatten

/-- The run deadline never fires. -/
def noDeadline : Sched :=
  { ctxDone := fun _ => false, pick := fun _ => false, doneIn := fun _ _ => false }

/-- The run deadline fires while the tasks of the first page are running; from then on it is
observed as fired everywhere, and every later `select`, finding both cases able to proceed, picks
the receive from `repoChan`. -/
def firesDuringFirstPage : Sched :=
  { ctxDone := fun k => decide (1 ≤ k), pick := fun _ => false,
    doneIn := fun k _ => decide (1 ≤ k) }

/-- The same deadline as in `firesDuringFirstPage`, with every `select` that finds both cases able
to proceed picking `<-ctx.Done()`. -/
def firesAndIsPicked : Sched :=
  { ctxDone := fun k => decide (1 ≤ k), pick := fun _ => true,
    doneIn := fun k _ => decide (1 ≤ k) }

/-! ## `exists` -/

theorem repoExists_iff_inInventory (repoName : String) (localRepos : List (Option FileInfo)) :
    repoExists repoName localRepos = true ↔ InInventory repoName localRepos := by
  unfold InInventory
  induction localRepos with
  | nil => simp [repoExists]
  | cons e rest ih =>
    cases e with
    | none => simp [repoExists, ih]
    | some r =>
      by_cases hd : r.isDir = true
      · by_cases hn : repoName = r.name
        · simp only [repoExists, hd, hn, Bool.not_true, Bool.false_eq_true, if_false, if_true,
            true_iff]
          exact ⟨r, by simp, hd, rfl⟩
        · simp only [repoExists, hd, hn, Bool.not_true, Bool.false_eq_true, if_false, ih]
          constructor
          · rintro ⟨x, hx, hxd, hxn⟩
            exact ⟨x, by simp [hx], hxd, hxn⟩
          · rintro ⟨x, hx, hxd, hxn⟩
            simp only [List.mem_cons, Option.some.injEq] at hx
            rcases hx with hx | hx
            · exact absurd (hx ▸ hxn).symm hn
            · exact ⟨x, hx, hxd, hxn⟩
      · have hd2 : r.isDir = false := by simpa using hd
        simp only [repoExists, hd2, Bool.not_false, if_true, ih]
        constructor
        · rintro ⟨x, hx, hxd, hxn⟩
          exact ⟨x, by simp [hx], hxd, hxn⟩
        · rintro ⟨x, hx, hxd, hxn⟩
          simp only [List.mem_cons, Option.some.injEq] at hx
          rcases hx with hx | hx
          · rw [hx, hd2] at hxd
            exact absurd hxd (by simp)
          · exact ⟨x, hx, hxd, hxn⟩

/-- C2: `exists(name, entries)` is true exactly when the list holds a non-nil entry that is a
directory and whose name equals `name` character for character; entries of that name that are not
directories, and entries whose name differs (in letter case or otherwise), never make it true. -/
theorem exists_iff_directory_of_that_name (repoName : String)
    (localRepos : List (Option FileInfo)) :
    (repoExists repoName localRepos = true ↔
      ∃ r : FileInfo, some r ∈ localRepos ∧ r.isDir = true ∧ r.name = repoName) ∧
    ((∀ r : FileInfo, some r ∈ localRepos → r.isDir = true → r.name ≠ repoName) →
      repoExists repoName localRepos = false) ∧
    repoExists repoName (some ⟨repoName, false⟩ :: none :: []) = false ∧
    repoExists "alpha" [some ⟨"Alpha", true⟩, some ⟨"ALPHA", true⟩] = false := by
  refine ⟨repoExists_iff_inInventory repoName localRepos, ?_, ?_, by decide⟩
  · intro h
    cases hx : repoExists repoName localRepos with
    | false => rfl
    | true =>
      obtain ⟨r, hr, hd, hn⟩ := (repoExists_iff_inInventory repoName localRepos).mp hx
      exact absurd hn (h r hr hd)
  · simp [repoExists]

/-! ## `iterateRepos` -/

theorem iterateReposFrom_eq_map (ctxDone : Nat → Bool) (localRepos : List (Option FileInfo))
    (repos : List Repository) (i : Nat)
    (h : ∀ j, j < repos.length → ctxDone (i + j) = false) :
    iterateReposFrom ctxDone localRepos i repos = repos.map (taskOf localRepos) := by
  induction repos generalizing i with
  | nil => rfl
  | cons r rs ih =>
    have h0 : ctxDone i = false := by simpa using h 0 (by simp)
    have hrest : ∀ j, j < rs.length → ctxDone (i + 1 + j) = false := by
      intro j hj
      have := h (j + 1) (by simpa using hj)
      rwa [show i + 1 + j = i + (j + 1) by omega]
    simp only [iterateReposFrom, h0, Bool.false_eq_true, if_false, List.map_cons, taskOf]
    split <;> simp [ih (i + 1) hrest]

theorem iterateReposFrom_take (ctxDone : Nat → Bool) (localRepos : List (Option FileInfo))
    (repos : List Repository) (i n : Nat) (h : ctxDone (i + n) = true) :
    iterateReposFrom ctxDone localRepos i repos =
      iterateReposFrom ctxDone localRepos i (repos.take n) := by
  induction repos generalizing i n with
  | nil => simp
  | cons r rs ih =>
    cases n with
    | zero =>
      have h0 : ctxDone i = true := by simpa using h
      simp [iterateReposFrom, h0]
    | succ m =>
      have hm : ctxDone (i + 1 + m) = true := by
        rwa [show i + 1 + m = i + (m + 1) by omega]
      simp only [iterateReposFrom, List.take_succ_cons]
      rw [← ih (i + 1) m hm]

theorem iterateReposFrom_repos_initial (ctxDone : Nat → Bool)
    (localRepos : List (Option FileInfo)) (repos : List Repository) (i : Nat) :
    (iterateReposFrom ctxDone localRepos i repos).map SyncTask.repo <+: repos := by
  induction repos generalizing i with
  | nil => simp [iterateReposFrom]
  | cons r rs ih =>
    simp only [iterateReposFrom]
    split
    · exact List.nil_prefix
    · split <;> simpa using ih (i + 1)

theorem taskOf_repo (localRepos : List (Option FileInfo)) (r : Repository) :
    (taskOf localRepos r).repo = r := by
  unfold taskOf
  split <;> rfl

theorem taskOf_gitCmd (localRepos : List (Option FileInfo)) (r : Repository) :
    (InInventory r.name localRepos → (taskOf localRepos r).gitCmd = "pull") ∧
    (¬ InInventory r.name localRepos → (taskOf localRepos r).gitCmd = "clone") := by
  unfold taskOf
  constructor
  · intro h
    rw [(repoExists_iff_inInventory _ _).mpr h]
    rfl
  · intro h
    have : repoExists r.name localRepos = false := by
      cases hx : repoExists r.name localRepos with
      | false => rfl
      | true => exact absurd ((repoExists_iff_inInventory _ _).mp hx) h
    rw [this]
    rfl

/-- C1: while the deadline has not elapsed at any position of the page, `iterateRepos` launches
exactly one task per repository descriptor, in page order, and the task of a descriptor is a
`pull` when its name is in the local inventory and a `clone` when it is not. -/
theorem iterateRepos_dispatches_each_once (ctxDone : Nat → Bool)
    (localRepos : List (Option FileInfo)) (repos : List Repository)
    (h : ∀ i, i < repos.length → ctxDone i = false) :
    (iterateRepos ctxDone localRepos repos).map SyncTask.repo = repos ∧
    ∀ t ∈ iterateRepos ctxDone localRepos repos,
      (InInventory t.repo.name localRepos → t.gitCmd = "pull") ∧
      (¬ InInventory t.repo.name localRepos → t.gitCmd = "clone") := by
  have hmap : iterateRepos ctxDone localRepos repos = repos.map (taskOf localRepos) :=
    iterateReposFrom_eq_map ctxDone localRepos repos 0 (by simpa using h)
  rw [hmap]
  constructor
  · rw [List.map_map]
    conv_rhs => rw [← List.map_id repos]
    exact List.map_congr_left (fun r _ => taskOf_repo localRepos r)
  · intro t ht
    obtain ⟨r, _, rfl⟩ := List.mem_map.mp ht
    rw [taskOf_repo]
    exact taskOf_gitCmd localRepos r

/-- C1, the scenario of the specification: inventory `alpha`, page `[alpha, beta]`. -/
theorem iterateRepos_alpha_beta :
    iterateRepos (fun _ => false) [some ⟨"alpha", true⟩]
        [⟨"alpha", "git@host:org/alpha.git"⟩, ⟨"beta", "git@host:org/beta.git"⟩] =
      [⟨"pull", ⟨"alpha", "git@host:org/alpha.git"⟩⟩,
       ⟨"clone", ⟨"beta", "git@host:org/beta.git"⟩⟩] ∧
    (iterateRepos (fun _ => false) [some ⟨"alpha", true⟩]
        [⟨"alpha", "git@host:org/alpha.git"⟩, ⟨"beta", "git@host:org/beta.git"⟩]).map
        SyncTask.repo =
      [⟨"alpha", "git@host:org/alpha.git"⟩, ⟨"beta", "git@host:org/beta.git"⟩] :=
  ⟨by decide,
   (iterateRepos_dispatches_each_once (fun _ => false) [some ⟨"alpha", true⟩]
      [⟨"alpha", "git@host:org/alpha.git"⟩, ⟨"beta", "git@host:org/beta.git"⟩]
      (fun _ _ => rfl)).1⟩

/-- C6: when the deadline is observed elapsed as `iterateRepos` reaches position `i` of the page,
the tasks launched are exactly those of the repositories before `i` (what the call launches on the
page cut at `i`), so none is launched for position `i` or later; and when the deadline has already
elapsed at the first check, nothing is launched at all. -/
theorem iterateRepos_stops_at_expiry (ctxDone : Nat → Bool)
    (localRepos : List (Option FileInfo)) (repos : List Repository) (i : Nat)
    (hi : i < repos.length) (hdone : ctxDone i = true)
    (hreach : ∀ j, j < i → ctxDone j = false) :
    iterateRepos ctxDone localRepos repos = (repos.take i).map (taskOf localRepos) ∧
    iterateRepos ctxDone localRepos repos = iterateRepos ctxDone localRepos (repos.take i) ∧
    (iterateRepos ctxDone localRepos repos).length = i ∧
    (ctxDone 0 = true → iterateRepos ctxDone localRepos repos = []) := by
  have hcut : iterateRepos ctxDone localRepos repos =
      iterateRepos ctxDone localRepos (repos.take i) :=
    iterateReposFrom_take ctxDone localRepos repos 0 i (by simpa using hdone)
  have hlen : (repos.take i).length = i := by
    rw [List.length_take]; omega
  have hmap : iterateRepos ctxDone localRepos (repos.take i) =
      (repos.take i).map (taskOf localRepos) :=
    iterateReposFrom_eq_map ctxDone localRepos (repos.take i) 0 (by
      intro j hj
      rw [hlen] at hj
      simpa using hreach j hj)
  refine ⟨hcut.trans hmap, hcut, ?_, ?_⟩
  · rw [hcut, hmap, List.length_map, hlen]
  · intro h0
    have := iterateReposFrom_take ctxDone localRepos repos 0 0 (by simpa using h0)
    simpa [iterateRepos, iterateReposFrom] using this

/-- C6 at a concrete page: the deadline is seen elapsed at position 1 of three. -/
theorem iterateRepos_stops_at_expiry_example :
    iterateRepos (fun i => decide (1 ≤ i)) [some ⟨"alpha", true⟩]
        [⟨"alpha", "a"⟩, ⟨"beta", "b"⟩, ⟨"gamma", "c"⟩] = [⟨"pull", ⟨"alpha", "a"⟩⟩] ∧
    (iterateRepos (fun i => decide (1 ≤ i)) [some ⟨"alpha", true⟩]
        [⟨"alpha", "a"⟩, ⟨"beta", "b"⟩, ⟨"gamma", "c"⟩]).length = 1 :=
  ⟨by decide,
   (iterateRepos_stops_at_expiry (fun i => decide (1 ≤ i)) [some ⟨"alpha", true⟩]
      [⟨"alpha", "a"⟩, ⟨"beta", "b"⟩, ⟨"gamma", "c"⟩] 1 (by decide) (by decide)
      (fun j hj => by
        have : j = 0 := by omega
        subst this
        decide)).2.2.1⟩

/-! ## Configuration -/

theorem resolveWithConfig_eq (env : Env) (flagValue envName key : String) :
    resolveWithConfig env flagValue envName key =
      if resolveSpec flagValue (env.getenv envName) ((findGitConfigLine env key).getD "") = ""
      then none
      else some (resolveSpec flagValue (env.getenv envName)
        ((findGitConfigLine env key).getD "")) := by
  unfold resolveWithConfig resolveSpec
  by_cases hf : flagValue = ""
  · by_cases he : env.getenv envName = ""
    · cases hc : findGitConfigLine env key with
      | none => simp [hf, he]
      | some v => by_cases hv : v = "" <;> simp [hf, he, hv]
    · simp [hf, he]
  · simp [hf]

theorem resolveNoConfig_eq (env : Env) (flagValue envName : String) :
    resolveNoConfig env flagValue envName =
      if resolveSpec flagValue (env.getenv envName) "" = "" then none
      else some (resolveSpec flagValue (env.getenv envName) "") := by
  unfold resolveNoConfig resolveSpec
  by_cases hf : flagValue = ""
  · by_cases he : env.getenv envName = "" <;> simp [hf, he]
  · simp [hf]

/-- Whenever what `findGitConfigLine` hands back for the two keys is the value the config file
configures, `initUser` ends the process exactly when a field of `resolvedSpec` is empty and
otherwise returns `resolvedSpec`: flags, environment variables and the order of the fallbacks are
as specified, and the looked-up value is the only place where the two can part. -/
theorem initUser_eq_resolvedSpec_of_lookup (fl : Flags) (env : Env)
    (hu : (findGitConfigLine env "user =").getD "" = configValueSpec env "user =")
    (ha : (findGitConfigLine env "token =").getD "" = configValueSpec env "token =") :
    (initUser fl env = none ↔
      (resolvedSpec fl env).gitUser = "" ∨ (resolvedSpec fl env).repoDir = "" ∨
      (resolvedSpec fl env).gitAPIKey = "" ∨ (resolvedSpec fl env).org = "") ∧
    (∀ c, initUser fl env = some c → c = resolvedSpec fl env) := by
  constructor
  · unfold initUser resolvedSpec
    rw [resolveWithConfig_eq, resolveNoConfig_eq, resolveWithConfig_eq, resolveNoConfig_eq,
      hu, ha]
    by_cases h1 : resolveSpec fl.u (env.getenv "GIT_USER") (configValueSpec env "user =") = ""
    · simp [h1]
    · by_cases h2 : resolveSpec fl.r (env.getenv "REPO_DIR") "" = ""
      · simp [h1, h2]
      · by_cases h3 :
            resolveSpec fl.a (env.getenv "GITHUB_API_KEY") (configValueSpec env "token =") = ""
        · simp [h1, h2, h3]
        · by_cases h4 : resolveSpec fl.o (env.getenv "GITHUB_ORG") "" = ""
          · simp [h1, h2, h3, h4]
          · simp [h1, h2, h3, h4]
  · intro c
    unfold initUser resolvedSpec
    rw [resolveWithConfig_eq, resolveNoConfig_eq, resolveWithConfig_eq, resolveNoConfig_eq,
      hu, ha]
    by_cases h1 : resolveSpec fl.u (env.getenv "GIT_USER") (configValueSpec env "user =") = ""
    · simp [h1]
    · by_cases h2 : resolveSpec fl.r (env.getenv "REPO_DIR") "" = ""
      · simp [h1, h2]
      · by_cases h3 :
            resolveSpec fl.a (env.getenv "GITHUB_API_KEY") (configValueSpec env "token =") = ""
        · simp [h1, h2, h3]
        · by_cases h4 : resolveSpec fl.o (env.getenv "GITHUB_ORG") "" = ""
          · simp [h1, h2, h3, h4]
          · simp only [h1, h2, h3, h4, if_false, Option.some.injEq]
            intro h
            exact h.symm

/-- C9: with no `-u` flag, no `GIT_USER` and the config line `user = ` (no value after the
blank), the account identity is still empty after all of its fallbacks, so start-up should be
fatal; `initUser` instead returns credentials whose account identity is the single blank.  With
`user = bob` and `token = abc123` configured, the fields should resolve to `bob` and `abc123`;
`initUser` resolves them to ` bob` and ` abc123`. -/
theorem initUser_not_fatal_on_empty_config_value :
    (resolvedSpec ⟨"", "/repos", "k", "acme"⟩ (envWithConfig "user = \n")).gitUser = "" ∧
    initUser ⟨"", "/repos", "k", "acme"⟩ (envWithConfig "user = \n") =
      some ⟨" ", "k", "/repos", "acme"⟩ ∧
    resolvedSpec ⟨"", "/repos", "", "acme"⟩ (envWithConfig "user = bob\ntoken = abc123\n") =
      ⟨"bob", "abc123", "/repos", "acme"⟩ ∧
    initUser ⟨"", "/repos", "", "acme"⟩ (envWithConfig "user = bob\ntoken = abc123\n") ≠
      some (resolvedSpec ⟨"", "/repos", "", "acme"⟩
        (envWithConfig "user = bob\ntoken = abc123\n")) := by
  decide

/-- C10: on the config file `token = abc123` (and `user = bob`) the value returned is the text
after the `=` sign with its leading blank, ` abc123` (and ` bob`), and that is the credential
`initUser` hands to the run; with no matching line the result is the empty string. -/
theorem findGitConfigLine_keeps_leading_blank :
    findGitConfigLine (envWithConfig "user = bob\ntoken = abc123\n") "token =" =
      some " abc123" ∧
    findGitConfigLine (envWithConfig "user = bob\ntoken = abc123\n") "user =" = some " bob" ∧
    initUser ⟨"", "/repos", "", "acme"⟩ (envWithConfig "user = bob\ntoken = abc123\n") =
      some ⟨" bob", " abc123", "/repos", "acme"⟩ ∧
    findGitConfigLine (envWithConfig "[core]\n") "token =" = some "" := by
  decide

/-! ## The remote lister -/

theorem sentPages_append (t u : List Event) : sentPages (t ++ u) = sentPages t ++ sentPages u := by
  induction t with
  | nil => rfl
  | cons e es ih => cases e <;> simp [sentPages, ih]

theorem requestedPages_append (t u : List Event) :
    requestedPages (t ++ u) = requestedPages t ++ requestedPages u := by
  induction t with
  | nil => rfl
  | cons e es ih => cases e <;> simp [requestedPages, ih]

theorem sentPages_listingTrace (c : Nat) (listing : Listing) :
    sentPages (listingTrace c listing) = listing.map Prod.fst := by
  induction listing generalizing c with
  | nil => rfl
  | cons p rest ih =>
    obtain ⟨repos, next⟩ := p
    simp [listingTrace, sentPages, ih]

theorem requestedPages_listingTrace (c : Nat) (listing : Listing) :
    requestedPages (listingTrace c listing) = (c :: listing.map Prod.snd).dropLast := by
  induction listing generalizing c with
  | nil => rfl
  | cons p rest ih =>
    obtain ⟨repos, next⟩ := p
    simp [listingTrace, requestedPages, ih]

theorem getRepoList_listing (remote : Remote) (listing : Listing) (fuel k c : Nat)
    (t : List Event) (hs : Serves remote k c listing) (ht : LastTokenOnly listing)
    (hf : listing.length ≤ fuel) :
    ∃ c2, getRepoList remote fuel ⟨c, k, t⟩ =
      (⟨c2, k + listing.length, t ++ listingTrace c listing⟩, some (false, none)) := by
  induction listing generalizing fuel k c t with
  | nil => exact absurd ht (by simp [LastTokenOnly])
  | cons p rest ih =>
    obtain ⟨repos, next⟩ := p
    obtain ⟨he, hr, hn, hrest⟩ := hs
    cases fuel with
    | zero => simp at hf
    | succ fuel =>
      have hf2 : rest.length ≤ fuel := by simpa using hf
      cases rest with
      | nil =>
        have hz : next = 0 := by simpa [LastTokenOnly] using ht
        refine ⟨c, ?_⟩
        simp [getRepoList, he, hr, hn, hz, listingTrace]
      | cons q rest2 =>
        have hnz : next ≠ 0 := ht.1
        obtain ⟨c2, h2⟩ := ih fuel (k + 1) next (t ++ [.request c] ++ [.send repos]) hrest ht.2 hf2
        refine ⟨c2, ?_⟩
        simp only [getRepoList, he, hr, hn, hnz, if_false, isRateLimitError, Bool.false_eq_true]
        rw [h2]
        simp [listingTrace, Nat.add_assoc, Nat.add_comm 1]

/-- C3: when the remote serves a finite listing of `n ≥ 1` pages without error, `getRepoList`
started from the initial cursor requests the pages with cursors `0, token₁, token₂, ...`, sends
each page once in listing order, and returns `(false, nil)` after the page whose token is `0`; the
producer then closes the channel and returns. -/
theorem producer_sends_listing_then_closes (remote : Remote) (listing : Listing) (fuel : Nat)
    (hs : Serves remote 0 0 listing) (ht : LastTokenOnly listing)
    (hf : listing.length ≤ fuel) :
    (getRepoList remote fuel Lister.init).2 = some (false, none) ∧
    (getRepoList remote fuel Lister.init).1.trace = listingTrace 0 listing ∧
    sentPages (getRepoList remote fuel Lister.init).1.trace = listing.map Prod.fst ∧
    requestedPages (getRepoList remote fuel Lister.init).1.trace =
      (0 :: listing.map Prod.snd).dropLast ∧
    (producer remote fuel Lister.init).returned = true ∧
    (producer remote fuel Lister.init).state.trace = listingTrace 0 listing ++ [.close] ∧
    sentPages (producer remote fuel Lister.init).state.trace = listing.map Prod.fst := by
  obtain ⟨c2, h⟩ := getRepoList_listing remote listing fuel 0 0 [] hs ht hf
  have hpos : 0 < fuel := by
    cases listing with
    | nil => exact absurd ht (by simp [LastTokenOnly])
    | cons p rest => exact Nat.lt_of_lt_of_le (by simp) hf
  obtain ⟨m, rfl⟩ : ∃ m, fuel = m + 1 := ⟨fuel - 1, by omega⟩
  have hg : getRepoList remote (m + 1) Lister.init =
      (⟨c2, 0 + listing.length, [] ++ listingTrace 0 listing⟩, some (false, none)) := h
  have hp : producer remote (m + 1) Lister.init =
      ⟨⟨c2, 0 + listing.length, [] ++ listingTrace 0 listing ++ [.close]⟩, true⟩ := by
    simp only [producer]
    rw [hg]
    simp
  rw [hg, hp]
  simp [sentPages_append, sentPages_listingTrace, requestedPages_listingTrace, sentPages]

/-- C3 at a concrete listing of three pages with tokens 2, 3, 0. -/
theorem producer_sends_three_pages :
    (producer threePages 3 Lister.init).state.trace =
      [.request 0, .send [⟨"alpha", "a"⟩], .request 2, .send [⟨"beta", "b"⟩],
       .request 3, .send [⟨"gamma", "c"⟩], .close] ∧
    (producer threePages 3 Lister.init).returned = true :=
  have h := producer_sends_listing_then_closes threePages threePagesListing 3
    (by simp [Serves, threePages, threePagesListing])
    (by simp [LastTokenOnly, threePagesListing]) (by decide)
  ⟨h.2.2.2.2.2.1, h.2.2.2.2.1⟩


theorem getElem_snoc_eq_some {α : Type} (l : List α) (c x : α) (k : Nat) :
    (l ++ [c])[k]? = some x ↔ l[k]? = some x ∨ (k = l.length ∧ x = c) := by
  rcases Nat.lt_trichotomy k l.length with h | h | h
  · rw [List.getElem?_append_left h]
    constructor
    · exact Or.inl
    · rintro (h1 | ⟨h1, _⟩)
      · exact h1
      · omega
  · subst h
    simp [eq_comm]
  · have h1 : l[k]? = none := List.getElem?_eq_none (by omega)
    have h2 : (l ++ [c])[k]? = none := List.getElem?_eq_none (by simp; omega)
    rw [h1, h2]
    constructor
    · intro h3; cases h3
    · rintro (h3 | ⟨h3, _⟩)
      · cases h3
      · omega

theorem lastPageReached_snoc_request (remote : Remote) (t : List Event) (c : Nat) :
    LastPageReached remote (t ++ [.request c]) ↔
      LastPageReached remote t ∨
        ((remote (requestedPages t).length c).err = none ∧
          (remote (requestedPages t).length c).nextPage = 0) := by
  unfold LastPageReached
  rw [requestedPages_append]
  simp only [requestedPages, getElem_snoc_eq_some]
  constructor
  · rintro ⟨k, x, hk | ⟨hk, hx⟩, he, hn⟩
    · exact Or.inl ⟨k, x, hk, he, hn⟩
    · subst hk; subst hx
      exact Or.inr ⟨he, hn⟩
  · rintro (⟨k, x, hk, he, hn⟩ | ⟨he, hn⟩)
    · exact ⟨k, x, Or.inl hk, he, hn⟩
    · exact ⟨_, c, Or.inr ⟨rfl, rfl⟩, he, hn⟩

theorem lastPageReached_snoc_send (remote : Remote) (t : List Event) (p : List Repository) :
    LastPageReached remote (t ++ [.send p]) ↔ LastPageReached remote t := by
  unfold LastPageReached
  rw [requestedPages_append]
  simp [requestedPages]

theorem lastPageReached_snoc_log (remote : Remote) (t : List Event) (e : Err) :
    LastPageReached remote (t ++ [.log e]) ↔ LastPageReached remote t := by
  unfold LastPageReached
  rw [requestedPages_append]
  simp [requestedPages]

theorem lastPageReached_snoc_close (remote : Remote) (t : List Event) :
    LastPageReached remote (t ++ [.close]) ↔ LastPageReached remote t := by
  unfold LastPageReached
  rw [requestedPages_append]
  simp [requestedPages]

theorem getRepoList_invariant (remote : Remote) (fuel : Nat) (st : Lister)
    (hreq : st.reqs = (requestedPages st.trace).length) (hc : Event.close ∉ st.trace)
    (hl : ¬ LastPageReached remote st.trace) :
    (getRepoList remote fuel st).1.reqs =
        (requestedPages (getRepoList remote fuel st).1.trace).length ∧
    Event.close ∉ (getRepoList remote fuel st).1.trace ∧
    (LastPageReached remote (getRepoList remote fuel st).1.trace ↔
      ∃ e, (getRepoList remote fuel st).2 = some (false, e)) := by
  induction fuel generalizing st with
  | zero => simp [getRepoList, hreq, hc, hl]
  | succ fuel ih =>
    cases he : (remote st.reqs st.page).err with
    | some e =>
      have hnot : ¬ LastPageReached remote (st.trace ++ [.request st.page]) := by
        rw [lastPageReached_snoc_request, ← hreq, he]
        simp [hl]
      by_cases hx : (remote st.reqs st.page).ctxErr = true
      · simp only [getRepoList, he, hx, if_true]
        refine ⟨by simp [requestedPages_append, requestedPages, hreq], by simp [hc], ?_⟩
        simp [hnot]
      · simp only [getRepoList, he, hx, if_false]
        refine ⟨by simp [requestedPages_append, requestedPages, hreq], by simp [hc], ?_⟩
        simp [hnot]
    | none =>
      by_cases hn : (remote st.reqs st.page).nextPage = 0
      · simp only [getRepoList, he, hn, if_true]
        refine ⟨by simp [requestedPages_append, requestedPages, hreq], by simp [hc], ?_⟩
        rw [lastPageReached_snoc_send, lastPageReached_snoc_request, ← hreq]
        simp [he, hn]
      · simp only [getRepoList, he, hn, if_false, isRateLimitError, Bool.false_eq_true]
        apply ih
        · simp [requestedPages_append, requestedPages, hreq]
        · simp [hc]
        · rw [lastPageReached_snoc_send, lastPageReached_snoc_request, ← hreq]
          simp [he, hn, hl]


theorem producer_invariant (remote : Remote) (fuel : Nat) (st : Lister)
    (hreq : st.reqs = (requestedPages st.trace).length) (hc : Event.close ∉ st.trace)
    (hl : ¬ LastPageReached remote st.trace) :
    ((producer remote fuel st).returned = false ∧
      Event.close ∉ (producer remote fuel st).state.trace ∧
      ¬ LastPageReached remote (producer remote fuel st).state.trace) ∨
    ((producer remote fuel st).returned = true ∧
      LastPageReached remote (producer remote fuel st).state.trace ∧
      ∃ pre, (producer remote fuel st).state.trace = pre ++ [.close] ∧ Event.close ∉ pre) := by
  induction fuel generalizing st with
  | zero => exact Or.inl ⟨rfl, hc, hl⟩
  | succ fuel ih =>
    obtain ⟨h1, h2, h3⟩ := getRepoList_invariant remote (fuel + 1) st hreq hc hl
    rcases hg : getRepoList remote (fuel + 1) st with ⟨st1, r⟩
    rw [hg] at h1 h2 h3
    simp only at h1 h2 h3
    cases r with
    | none =>
      have hp : producer remote (fuel + 1) st = ⟨st1, false⟩ := by
        simp [producer, hg]
      rw [hp]
      exact Or.inl ⟨rfl, h2, by simpa using h3⟩
    | some r =>
      obtain ⟨more, err⟩ := r
      cases more with
      | false =>
        have hlast : LastPageReached remote st1.trace := h3.mpr ⟨err, rfl⟩
        refine Or.inr ?_
        cases err with
        | none =>
          have hp : producer remote (fuel + 1) st =
              ⟨⟨st1.page, st1.reqs, st1.trace ++ [.close]⟩, true⟩ := by
            simp [producer, hg]
          rw [hp]
          exact ⟨rfl, (lastPageReached_snoc_close _ _).mpr hlast, st1.trace, rfl, h2⟩
        | some e =>
          have hp : producer remote (fuel + 1) st =
              ⟨⟨st1.page, st1.reqs, st1.trace ++ [.log e] ++ [.close]⟩, true⟩ := by
            simp [producer, hg]
          rw [hp]
          exact ⟨rfl, (lastPageReached_snoc_close _ _).mpr
            ((lastPageReached_snoc_log _ _ _).mpr hlast), st1.trace ++ [.log e], rfl,
            by simp [h2]⟩
      | true =>
        have hnl : ¬ LastPageReached remote st1.trace := by
          intro h
          obtain ⟨e, he⟩ := h3.mp h
          simp at he
        cases err with
        | none =>
          have hp : producer remote (fuel + 1) st = producer remote fuel st1 := by
            simp [producer, hg]
          rw [hp]
          exact ih st1 h1 h2 hnl
        | some e =>
          have hp : producer remote (fuel + 1) st =
              producer remote fuel ⟨st1.page, st1.reqs, st1.trace ++ [.log e]⟩ := by
            simp [producer, hg]
          rw [hp]
          exact ih ⟨st1.page, st1.reqs, st1.trace ++ [.log e]⟩
            (by simp [requestedPages_append, requestedPages, h1]) (by simp [h2])
            (by rw [lastPageReached_snoc_log]; exact hnl)

theorem nothing_after_last {α : Type} (pre pre2 post : List α) (a : α) (h : a ∉ pre)
    (heq : pre ++ [a] = pre2 ++ a :: post) : post = [] := by
  rcases List.append_eq_append_iff.mp heq with ⟨a2, h1, h2⟩ | ⟨c2, h1, h2⟩
  · cases a2 with
    | nil => simpa using h2
    | cons x xs =>
      have := congrArg List.length h2
      simp at this
  · cases c2 with
    | nil => simpa using h2.symm
    | cons x xs =>
      simp only [List.cons_append, List.cons.injEq] at h2
      exact absurd (by rw [h1, ← h2.1]; simp) h


theorem producer_never_closes (remote : Remote)
    (h : ∀ k c, (remote k c).err = none → (remote k c).nextPage ≠ 0) (fuel : Nat) :
    Event.close ∉ (producer remote fuel Lister.init).state.trace ∧
      (producer remote fuel Lister.init).returned = false := by
  have hnever : ∀ t, ¬ LastPageReached remote t := by
    rintro t ⟨k, c, _, he, hn⟩
    exact h k c he hn
  rcases producer_invariant remote fuel Lister.init rfl (by simp [Lister.init])
    (hnever _) with ⟨h1, h2, _⟩ | ⟨_, h2, _⟩
  · exact ⟨h2, h1⟩
  · exact absurd h2 (hnever _)

theorem getRepoList_never_reports_rate_limit (remote : Remote) (fuel : Nat) (st : Lister)
    (more : Bool) (e : Option Err) (h : (getRepoList remote fuel st).2 = some (more, e)) :
    e ≠ some .hitRateLimit := by
  induction fuel generalizing st with
  | zero => simp [getRepoList] at h
  | succ fuel ih =>
    cases he : (remote st.reqs st.page).err with
    | some x =>
      cases hx : (remote st.reqs st.page).ctxErr with
      | true =>
        simp only [getRepoList, he, hx, if_true, Option.some.injEq, Prod.mk.injEq] at h
        rw [← h.2]; simp
      | false =>
        simp only [getRepoList, he, hx, Bool.false_eq_true, if_false, Option.some.injEq,
          Prod.mk.injEq] at h
        rw [← h.2]; simp
    | none =>
      by_cases hn : (remote st.reqs st.page).nextPage = 0
      · simp only [getRepoList, he, hn, if_true, Option.some.injEq, Prod.mk.injEq] at h
        rw [← h.2]; simp
      · simp only [getRepoList, he, hn, if_false, isRateLimitError, Bool.false_eq_true] at h
        exact ih _ h

/-- C4: on the scenario "page 1 served, then rate-limit errors", `getRepoList` answers the
rate-limit error with `more = true` and the API error itself, the producer requests the same page
again after each such answer, and the channel is never closed. -/
theorem getRepoList_rate_limit_reports_more :
    getRepoList rateLimitedOnPageTwo 3 Lister.init =
      (⟨2, 2, [.request 0, .send [⟨"alpha", "a"⟩], .request 2]⟩,
        some (true, some (.api .rateLimit))) ∧
    producer rateLimitedOnPageTwo 3 Lister.init =
      ⟨⟨2, 4, [.request 0, .send [⟨"alpha", "a"⟩], .request 2, .log (.api .rateLimit),
        .request 2, .log (.api .rateLimit), .request 2, .log (.api .rateLimit)]⟩, false⟩ ∧
    ¬ ∃ fuel, Event.close ∈ (producer rateLimitedOnPageTwo fuel Lister.init).state.trace := by
  refine ⟨by decide, by decide, ?_⟩
  rintro ⟨fuel, hf⟩
  refine (producer_never_closes rateLimitedOnPageTwo ?_ fuel).1 hf
  intro k c
  cases k <;> simp [rateLimitedOnPageTwo]

/-- C5, as stated, fails: when every request is answered by an error, with the run deadline
expired or not, the producer keeps asking and the channel is never closed. -/
theorem producer_never_closes_on_persistent_errors :
    (¬ ∃ fuel, Event.close ∈ (producer alwaysFailing fuel Lister.init).state.trace) ∧
    (¬ ∃ fuel, Event.close ∈ (producer deadlineExpired fuel Lister.init).state.trace) ∧
    (¬ ∃ fuel, (producer deadlineExpired fuel Lister.init).returned = true) ∧
    producer deadlineExpired 2 Lister.init =
      ⟨⟨0, 2, [.request 0, .log .ctx, .request 0, .log .ctx]⟩, false⟩ := by
  refine ⟨?_, ?_, ?_, by decide⟩
  · rintro ⟨fuel, hf⟩
    exact (producer_never_closes alwaysFailing (by simp [alwaysFailing]) fuel).1 hf
  · rintro ⟨fuel, hf⟩
    exact (producer_never_closes deadlineExpired (by simp [deadlineExpired]) fuel).1 hf
  · rintro ⟨fuel, hf⟩
    rw [(producer_never_closes deadlineExpired (by simp [deadlineExpired]) fuel).2] at hf
    cases hf

/-- C5 (amended): in every run of the producer, whatever the remote answers, the channel is
closed at most once and nothing is sent or requested after the close; and once a request has been
answered with the last page, the channel has been closed exactly once and the producer has
returned. -/
theorem producer_closes_at_most_once (remote : Remote) (fuel : Nat) :
    (producer remote fuel Lister.init).state.trace.count .close ≤ 1 ∧
    (∀ pre post, (producer remote fuel Lister.init).state.trace = pre ++ Event.close :: post →
      post = []) ∧
    (LastPageReached remote (producer remote fuel Lister.init).state.trace →
      (producer remote fuel Lister.init).state.trace.count .close = 1 ∧
      (producer remote fuel Lister.init).returned = true) := by
  have hinit : ¬ LastPageReached remote Lister.init.trace := by
    rintro ⟨k, c, hk, _⟩
    simp [Lister.init, requestedPages] at hk
  rcases producer_invariant remote fuel Lister.init rfl (by simp [Lister.init]) hinit with
    ⟨_, h2, h3⟩ | ⟨h1, _, pre, hpre, hnot⟩
  · refine ⟨?_, ?_, fun h => absurd h h3⟩
    · rw [List.count_eq_zero_of_not_mem h2]
      exact Nat.zero_le 1
    · intro pre post heq
      exact absurd (by rw [heq]; simp) h2
  · have hcount : (producer remote fuel Lister.init).state.trace.count .close = 1 := by
      rw [hpre, List.count_append, List.count_eq_zero_of_not_mem hnot]
      simp
    refine ⟨by rw [hcount], ?_, fun _ => ⟨hcount, h1⟩⟩
    intro pre2 post heq
    rw [hpre] at heq
    exact nothing_after_last pre pre2 post Event.close hnot heq


/-! ## The coordinator loop -/

theorem mainLoop_nil_closed (s : Sched) (localRepos : List (Option FileInfo)) (k : Nat) :
    mainLoop s localRepos k [] true =
      if (s.ctxDone k && s.pick k) = true then ⟨2, []⟩
      else ⟨0, [iterateRepos (s.doneIn k) localRepos []]⟩ := by
  simp [mainLoop]

theorem mainLoop_nil_open (s : Sched) (localRepos : List (Option FileInfo)) (k : Nat) :
    mainLoop s localRepos k [] false = ⟨2, []⟩ := by
  simp [mainLoop]

theorem mainLoop_cons (s : Sched) (localRepos : List (Option FileInfo)) (k : Nat)
    (p : List Repository) (rest : List (List Repository)) (closed : Bool) :
    mainLoop s localRepos k (p :: rest) closed =
      if (s.ctxDone k && s.pick k) = true then ⟨2, []⟩
      else ⟨(mainLoop s localRepos (k + 1) rest closed).exitCode,
        iterateRepos (s.doneIn k) localRepos p ::
          (mainLoop s localRepos (k + 1) rest closed).dispatched⟩ := by
  simp [mainLoop]

theorem mainLoop_exitCode_zero_iff (s : Sched) (localRepos : List (Option FileInfo))
    (k : Nat) (pending : List (List Repository)) (closed : Bool) :
    (mainLoop s localRepos k pending closed).exitCode = 0 ↔
      closed = true ∧
        ∀ j, j ≤ pending.length → ¬ (s.ctxDone (k + j) = true ∧ s.pick (k + j) = true) := by
  induction pending generalizing k with
  | nil =>
    cases closed with
    | false => simp [mainLoop_nil_open]
    | true =>
      rw [mainLoop_nil_closed]
      cases hb : (s.ctxDone k && s.pick k) with
      | true =>
        have h2 : s.ctxDone k = true ∧ s.pick k = true := by simpa using hb
        simp only [if_true, true_and]
        constructor
        · intro hx; cases hx
        · intro hx
          exact absurd h2 (by simpa using hx 0 (Nat.le_refl _))
      | false =>
        have h2 : ¬ (s.ctxDone k = true ∧ s.pick k = true) := by
          rw [← Bool.and_eq_true, hb]; simp
        simp only [Bool.false_eq_true, if_false, true_and, true_iff]
        intro j hj
        have : j = 0 := by simpa using hj
        subst this
        simpa using h2
  | cons p rest ih =>
    rw [mainLoop_cons]
    cases hb : (s.ctxDone k && s.pick k) with
    | true =>
      have h2 : s.ctxDone k = true ∧ s.pick k = true := by simpa using hb
      simp only [if_true]
      constructor
      · intro hx; cases hx
      · rintro ⟨_, hx⟩
        exact absurd h2 (by simpa using hx 0 (Nat.zero_le _))
    | false =>
      have h2 : ¬ (s.ctxDone k = true ∧ s.pick k = true) := by
        rw [← Bool.and_eq_true, hb]; simp
      simp only [Bool.false_eq_true, if_false, ih (k + 1)]
      constructor
      · rintro ⟨hc, hx⟩
        refine ⟨hc, ?_⟩
        intro j hj
        cases j with
        | zero => simpa using h2
        | succ m =>
          have := hx m (by simpa using hj)
          rwa [show k + 1 + m = k + (m + 1) by omega] at this
      · rintro ⟨hc, hx⟩
        refine ⟨hc, ?_⟩
        intro j hj
        have := hx (j + 1) (by simpa using hj)
        rwa [show k + (j + 1) = k + 1 + j by omega] at this

theorem mainLoop_exitCode_cases (s : Sched) (localRepos : List (Option FileInfo))
    (k : Nat) (pending : List (List Repository)) (closed : Bool) :
    (mainLoop s localRepos k pending closed).exitCode = 0 ∨
      (mainLoop s localRepos k pending closed).exitCode = 2 := by
  induction pending generalizing k with
  | nil =>
    cases closed with
    | false => simp [mainLoop_nil_open]
    | true =>
      rw [mainLoop_nil_closed]
      cases hb : (s.ctxDone k && s.pick k) <;> simp
  | cons p rest ih =>
    rw [mainLoop_cons]
    cases hb : (s.ctxDone k && s.pick k) with
    | true => simp
    | false =>
      simp only [Bool.false_eq_true, if_false]
      exact ih (k + 1)

theorem mainLoop_dispatched_length (s : Sched) (localRepos : List (Option FileInfo))
    (k : Nat) (pending : List (List Repository)) (closed : Bool)
    (h : (mainLoop s localRepos k pending closed).exitCode = 0) :
    (mainLoop s localRepos k pending closed).dispatched.length = pending.length + 1 := by
  induction pending generalizing k with
  | nil =>
    cases closed with
    | false => simp [mainLoop_nil_open] at h
    | true =>
      rw [mainLoop_nil_closed] at h ⊢
      cases hb : (s.ctxDone k && s.pick k) with
      | true => simp [hb] at h
      | false => simp
  | cons p rest ih =>
    rw [mainLoop_cons] at h ⊢
    cases hb : (s.ctxDone k && s.pick k) with
    | true => simp [hb] at h
    | false =>
      simp only [hb, Bool.false_eq_true, if_false] at h ⊢
      simp [ih (k + 1) h]

theorem mainLoop_tasks_sublist (s : Sched) (localRepos : List (Option FileInfo))
    (k : Nat) (pending : List (List Repository)) (closed : Bool) :
    List.Sublist ((mainLoop s localRepos k pending closed).tasks.map SyncTask.repo)
      pending.flatten := by
  unfold RunResult.tasks
  induction pending generalizing k with
  | nil =>
    cases closed with
    | false => simp [mainLoop_nil_open]
    | true =>
      rw [mainLoop_nil_closed]
      cases hb : (s.ctxDone k && s.pick k) <;> simp [iterateRepos, iterateReposFrom]
  | cons p rest ih =>
    rw [mainLoop_cons]
    cases hb : (s.ctxDone k && s.pick k) with
    | true => simp
    | false =>
      simp only [Bool.false_eq_true, if_false, List.flatten_cons, List.map_append]
      exact List.Sublist.append
        (iterateReposFrom_repos_initial (s.doneIn k) localRepos p 0).sublist (ih (k + 1))

/-- C7: the run deadline fires while the tasks of page 1 run, with page 2 still in the channel
and the channel closed.  Every later `select` finds both cases able to proceed; when it picks the
receive each time, page 2 is handed to `iterateRepos`, which dispatches nothing, and the process
ends with status 0 instead of 2.  On the same input and the same deadline the status is 2 when
the `select` picks `<-ctx.Done()`. -/
theorem mainLoop_exits_zero_after_deadline :
    firesDuringFirstPage.Monotone ∧
    firesDuringFirstPage.ctxDone 1 = true ∧
    firesDuringFirstPage.doneIn 1 0 = true ∧
    mainLoop firesDuringFirstPage [] 0 [[⟨"alpha", "a"⟩], [⟨"beta", "b"⟩]] true =
      ⟨0, [[⟨"clone", ⟨"alpha", "a"⟩⟩], [], []]⟩ ∧
    mainLoop firesAndIsPicked [] 0 [[⟨"alpha", "a"⟩], [⟨"beta", "b"⟩]] true =
      ⟨2, [[⟨"clone", ⟨"alpha", "a"⟩⟩]]⟩ := by
  refine ⟨⟨?_, ?_, ?_⟩, by decide, by decide, by decide, by decide⟩
  · intro k i h
    exact h
  · intro k i h
    exact h
  · intro k i h
    simp only [firesDuringFirstPage, decide_eq_true_eq] at h ⊢
    omega

/-- The exit status of the coordinator loop as a function of what its `select`s take: 0 or 2; 0
exactly when the channel is closed and no `select`, up to the one that observes the closed
channel, takes `<-ctx.Done()`, and then every page was handed to `iterateRepos`; 2 exactly when
some `select` takes `<-ctx.Done()`, being the case picked or the only one that can proceed. -/
theorem mainLoop_exitCode_by_select (s : Sched) (localRepos : List (Option FileInfo))
    (pending : List (List Repository)) (closed : Bool) :
    ((mainLoop s localRepos 0 pending closed).exitCode = 0 ∨
      (mainLoop s localRepos 0 pending closed).exitCode = 2) ∧
    ((mainLoop s localRepos 0 pending closed).exitCode = 0 ↔
      closed = true ∧
        ∀ k, k ≤ pending.length → ¬ (s.ctxDone k = true ∧ s.pick k = true)) ∧
    ((mainLoop s localRepos 0 pending closed).exitCode = 2 ↔
      closed = false ∨ ∃ k, k ≤ pending.length ∧ s.ctxDone k = true ∧ s.pick k = true) ∧
    ((mainLoop s localRepos 0 pending closed).exitCode = 0 →
      (mainLoop s localRepos 0 pending closed).dispatched.length = pending.length + 1) := by
  have hz := mainLoop_exitCode_zero_iff s localRepos 0 pending closed
  simp only [Nat.zero_add] at hz
  have hc := mainLoop_exitCode_cases s localRepos 0 pending closed
  refine ⟨hc, hz, ?_, mainLoop_dispatched_length s localRepos 0 pending closed⟩
  constructor
  · intro h2
    have hnz : ¬ (mainLoop s localRepos 0 pending closed).exitCode = 0 := by
      rw [h2]; decide
    rw [hz] at hnz
    by_cases hcl : closed = true
    · right
      by_contra hne
      apply hnz
      refine ⟨hcl, fun k hk hx => hne ⟨k, hk, hx⟩⟩
    · left
      simpa using hcl
  · intro h
    rcases hc with h0 | h2
    · exfalso
      obtain ⟨hcl, hx⟩ := hz.mp h0
      rcases h with h | ⟨k, hk, hd⟩
      · rw [hcl] at h; cases h
      · exact hx k hk hd
    · exact h2

/-- C8, as stated, fails: a listing that delivers the name `alpha` on two pages gets two tasks
for `alpha`. -/
theorem mainLoop_dispatches_duplicate_name :
    (mainLoop noDeadline [] 0 [[⟨"alpha", "a"⟩], [⟨"alpha", "a"⟩]] true).tasks =
      [⟨"clone", ⟨"alpha", "a"⟩⟩, ⟨"clone", ⟨"alpha", "a"⟩⟩] ∧
    ¬ ((mainLoop noDeadline [] 0 [[⟨"alpha", "a"⟩], [⟨"alpha", "a"⟩]] true).tasks.map
        (fun t => t.repo.name)).Nodup := by
  decide

/-- C8 (amended): when the repository names delivered over all pages of the run are pairwise
distinct, no two of the tasks launched by the coordinator loop are for the same name. -/
theorem mainLoop_one_task_per_name (s : Sched) (localRepos : List (Option FileInfo))
    (pending : List (List Repository)) (closed : Bool)
    (h : (pending.flatten.map Repository.name).Nodup) :
    ((mainLoop s localRepos 0 pending closed).tasks.map (fun t => t.repo.name)).Nodup := by
  have hsub := (mainLoop_tasks_sublist s localRepos 0 pending closed).map Repository.name
  rw [List.map_map] at hsub
  exact h.sublist hsub

/-- C8 (amended) at a concrete run: two pages with distinct names. -/
theorem mainLoop_one_task_per_name_example :
    ((mainLoop noDeadline [some ⟨"alpha", true⟩] 0
        [[⟨"alpha", "a"⟩], [⟨"beta", "b"⟩]] true).tasks.map (fun t => t.repo.name)).Nodup ∧
    (mainLoop noDeadline [some ⟨"alpha", true⟩] 0
        [[⟨"alpha", "a"⟩], [⟨"beta", "b"⟩]] true).tasks =
      [⟨"pull", ⟨"alpha", "a"⟩⟩, ⟨"clone", ⟨"beta", "b"⟩⟩] :=
  ⟨mainLoop_one_task_per_name noDeadline [some ⟨"alpha", true⟩]
      [[⟨"alpha", "a"⟩], [⟨"beta", "b"⟩]] true (by decide),
   by decide⟩

end GitAll
